import Mathlib

/-!
Verification of the `stroke` Go package (cubic-Bézier path stroking).

The Go code is shallowly embedded: `float32`/`float64` arithmetic is
idealized as real-number arithmetic (`ℝ`), numeric literals are taken as the
exact real numbers written in the source, `math.Sqrt`/`math.Hypot` are
modelled by `Real.sqrt` (which returns `0` instead of NaN on negative
arguments; the places where this matters are noted), and Go slices are
Lean lists.  Functions of the repository that are referenced but whose
bodies are not part of the sources at hand (`distance`, `rot90CW`, the
`affine2D` transform methods, and the `Stroke` engine itself) are modelled
from the specification and marked as such in their doc comments.
-/

namespace stroke

open scoped Classical

noncomputable section

/-- Point from the source: a two dimensional point with `float32` fields,
idealized over `ℝ`. -/
structure Point where
  X : ℝ
  Y : ℝ

/-- Pt is shorthand for `Point.mk x y` (source: `Pt`). -/
def Pt (x y : ℝ) : Point :=
  ⟨x, y⟩

/-- Add returns the point p+p2 (source: `Point.Add`). -/
def Point.Add (p p2 : Point) : Point :=
  Pt (p.X + p2.X) (p.Y + p2.Y)

/-- Sub returns the vector p-p2 (source: `Point.Sub`). -/
def Point.Sub (p p2 : Point) : Point :=
  Pt (p.X - p2.X) (p.Y - p2.Y)

/-- Mul returns p scaled by s (source: `Point.Mul`). -/
def Point.Mul (p : Point) (s : ℝ) : Point :=
  Pt (p.X * s) (p.Y * s)

/-- Div returns the vector p/s (source: `Point.Div`). -/
def Point.Div (p : Point) (s : ℝ) : Point :=
  Pt (p.X / s) (p.Y / s)

/-- Models `math.Hypot(x, y)` on finite inputs: the euclidean norm
`sqrt(x² + y²)`. -/
noncomputable def hypot (x y : ℝ) : ℝ :=
  Real.sqrt (x * x + y * y)

/-- A Segment is a cubic bezier curve (source: `Segment`). -/
structure Segment where
  Start : Point
  CP1 : Point
  CP2 : Point
  End : Point

/-- interpolate returns a point between a and b, with the ratio specified
by t (source: `interpolate`). -/
def interpolate (t : ℝ) (a b : Point) : Point :=
  (a.Mul (1 - t)).Add (b.Mul t)

/-- LinearSegment returns a line segment connecting a and b, as a cubic
bezier curve with collinear control points (source: `LinearSegment`). -/
def LinearSegment (a b : Point) : Segment :=
  let diff := b.Sub a
  let spacing := diff.Div 3
  ⟨a, a.Add spacing, b.Sub spacing, b⟩

/-- QuadraticSegment converts a quadratic bezier segment to a cubic one
(source: `QuadraticSegment`; the source writes the literal
`0.6666666666666666`, embedded here as that exact rational). -/
def QuadraticSegment (start cp end_ : Point) : Segment :=
  ⟨start, interpolate 0.6666666666666666 start cp,
    interpolate 0.6666666666666666 end_ cp, end_⟩

/-- unitVector returns p scaled so that it lies on the unit circle; if p is
(0, 0) it is returned unchanged (source: `unitVector`). -/
noncomputable def unitVector (p : Point) : Point :=
  if p = Pt 0 0 then p
  else p.Div (hypot p.X p.Y)

/-- tangents returns the tangent directions at the start and end of s, as
unit vectors (source: `Segment.tangents`). -/
noncomputable def Segment.tangents (s : Segment) : Point × Point :=
  ( if s.CP1 ≠ s.Start then unitVector (s.CP1.Sub s.Start)
    else if s.CP2 ≠ s.Start then unitVector (s.CP2.Sub s.Start)
    else unitVector (s.End.Sub s.Start),
    if s.CP2 ≠ s.End then unitVector (s.End.Sub s.CP2)
    else if s.CP1 ≠ s.End then unitVector (s.End.Sub s.CP1)
    else unitVector (s.End.Sub s.Start) )

/-- quadraticRoots appends the values of t for which a one-dimensional
quadratic bezier function returns zero (source: `quadraticRoots`;
`math.Sqrt` of a negative argument yields NaN in Go, modelled here by
`Real.sqrt`, which yields 0 — the difference only changes which candidate
values the caller `extrema` later discards or keeps). -/
noncomputable def quadraticRoots (dst : List ℝ) (a b c : ℝ) : List ℝ :=
  let d := a - 2 * b + c
  if d ≠ 0 then
    let m1 := -Real.sqrt (b * b - a * c)
    let m2 := -a + b
    dst ++ [-(m1 + m2) / d, -(-m1 + m2) / d]
  else if b ≠ c then dst ++ [(2 * b - c) / (2 * (b - c))]
  else dst

/-- linearRoot returns the value of t for which a one-dimensional linear
bezier function returns zero (source: `linearRoot`; the Go `(root, ok)`
pair is modelled as an `Option`). -/
noncomputable def linearRoot (a b : ℝ) : Option ℝ :=
  if a ≠ b then some (a / (a - b)) else none

/-- compactAux is the loop of the source's `compact`, carrying the last
kept value. -/
noncomputable def compactAux (last : ℝ) : List ℝ → List ℝ
  | [] => []
  | v :: vs => if v = last then compactAux last vs else v :: compactAux v vs

/-- compact removes adjacent duplicates, keeping the first element of each
run (source: `compact`). -/
noncomputable def compact (s : List ℝ) : List ℝ :=
  match s with
  | [] => []
  | x :: xs => x :: compactAux x xs

/-- extrema returns a sorted slice of t values of the extreme points of s,
including the start and end points (source: `Segment.extrema`; Go's
`sort.Sort(float32Slice(...))` is modelled by insertion sort on `≤`, and
the NaN test `v != v` is always false over `ℝ`). -/
noncomputable def Segment.extrema (s : Segment) : List ℝ :=
  let ax := s.CP1.X - s.Start.X
  let bx := s.CP2.X - s.CP1.X
  let cx := s.End.X - s.CP2.X
  let r0 := quadraticRoots [] ax bx cx
  let r1 := match linearRoot (bx - ax) (cx - bx) with
    | some v => r0 ++ [v]
    | none => r0
  let ay := s.CP1.Y - s.Start.Y
  let by_ := s.CP2.Y - s.CP1.Y
  let cy := s.End.Y - s.CP2.Y
  let r2 := quadraticRoots r1 ay by_ cy
  let r3 := match linearRoot (by_ - ay) (cy - by_) with
    | some v => r2 ++ [v]
    | none => r2
  let r4 := r3 ++ [0, 1]
  let r5 := r4.map fun v => if v < 0 ∨ v > 1 then 0 else v
  compact (List.insertionSort (· ≤ ·) r5)

/-- Split splits s into two segments with de Casteljau's algorithm, at t
(source: `Segment.Split`). -/
def Segment.Split (s : Segment) (t : ℝ) : Segment × Segment :=
  let a1 := interpolate t s.Start s.CP1
  let a2 := interpolate t s.CP1 s.CP2
  let a3 := interpolate t s.CP2 s.End
  let b1 := interpolate t a1 a2
  let b2 := interpolate t a2 a3
  let c := interpolate t b1 b2
  (⟨s.Start, a1, b1, c⟩, ⟨c, b2, a3, s.End⟩)

/-- Split2 returns the section of s that lies between t1 and t2 (source:
`Segment.Split2`). -/
noncomputable def Segment.Split2 (s : Segment) (t1 t2 : ℝ) : Segment :=
  if t1 = 0 then (s.Split t2).1
  else if t2 = 1 then (s.Split t1).2
  else ((s.Split t2).1.Split (t1 / t2)).2

/-- splitAtExtrema returns the sub-segments of s between consecutive
extrema (source: `Segment.splitAtExtrema`; the Go indexed loop over
`extrema[i], extrema[i+1]` is modelled by zipping the list with its
tail). -/
noncomputable def Segment.splitAtExtrema (s : Segment) : List Segment :=
  (s.extrema.zip s.extrema.tail).map fun p => s.Split2 p.1 p.2

/-- reverse swaps Start/End and CP1/CP2 (source: `Segment.reverse`). -/
def Segment.reverse (s : Segment) : Segment :=
  ⟨s.End, s.CP2, s.CP1, s.Start⟩

/-- reversePath reverses a contour, reversing each segment (source:
`reversePath`). -/
def reversePath (path : List Segment) : List Segment :=
  (path.map Segment.reverse).reverse

/-- Models `math.Atan2(y, x)` on finite inputs: the angle of the vector
`(x, y)` in `(-π, π]`, with `atan2 0 0 = 0`. -/
noncomputable def atan2 (y x : ℝ) : ℝ :=
  if 0 < x then Real.arctan (y / x)
  else if x < 0 ∧ 0 ≤ y then Real.arctan (y / x) + Real.pi
  else if x < 0 ∧ y < 0 then Real.arctan (y / x) - Real.pi
  else if x = 0 ∧ 0 < y then Real.pi / 2
  else if x = 0 ∧ y < 0 then -(Real.pi / 2)
  else 0

/-- heading returns the angle of the line from the origin to p (source:
`heading`). -/
noncomputable def heading (p : Point) : ℝ :=
  atan2 p.Y p.X

/-- Modelled from the spec: the euclidean distance between two points
(function `distance` of the repository, whose body is not among the
sources at hand; §4.3 of the spec uses focal distances, and the same
quantity appears in the sources as the `float64` function `dist`). -/
noncomputable def distance (p1 p2 : Point) : ℝ :=
  hypot (p2.X - p1.X) (p2.Y - p1.Y)

/-- Modelled from the spec: a 90-degree rotation of a vector (function
`rot90CW` of the repository, whose body is not among the sources at hand;
§4.4 step 3 of the spec offsets along "the derivative rotated 90°").  In
the y-down screen convention used by the package, `(x, y) ↦ (-y, x)` is
the clockwise rotation. -/
def rot90CW (p : Point) : Point :=
  Pt (-p.Y) p.X

/-- ArcSegment returns a Segment that approximates an arc of a circle,
starting at start, centered at center, and extending angle radians
counterclockwise (source: `ArcSegment`). -/
noncomputable def ArcSegment (start center : Point) (angle : ℝ) : Segment :=
  let startAngle := heading (start.Sub center)
  let endAngle := startAngle + angle
  let radius := distance start center
  let e := Pt (center.X + radius * Real.cos endAngle)
    (center.Y + radius * Real.sin endAngle)
  let k := Real.tan (angle / 4) * 4 / 3
  let cp1 := start.Add ((rot90CW (center.Sub start)).Mul k)
  let cp2 := e.Add ((rot90CW (e.Sub center)).Mul k)
  ⟨start, cp1, cp2, e⟩

/-- arcLoop is the loop of the source's `AppendArc`: n times, append the
single-segment approximation of the next sub-arc and advance the current
position to its end point. -/
noncomputable def arcLoop (center : Point) (segmentAngle : ℝ) :
    ℕ → Point → List Segment → List Segment
  | 0, _, dst => dst
  | n + 1, pos, dst =>
    arcLoop center segmentAngle n (ArcSegment pos center segmentAngle).End
      (dst ++ [ArcSegment pos center segmentAngle])

/-- appendArcCount is the sub-arc count `n := int(math.Abs(angle) + 1)`
computed by the source's `AppendArc` (truncation of the nonnegative value
`|angle| + 1` is its floor). -/
noncomputable def appendArcCount (angle : ℝ) : ℤ :=
  ⌊|angle| + 1⌋

/-- AppendArc appends one or more segments to dst, forming an arc of a
circle starting at start, centered at center, and extending angle radians
counterclockwise; the arc is broken into segments of less than a radian
(source: `AppendArc`). -/
noncomputable def AppendArc (dst : List Segment) (start center : Point)
    (angle : ℝ) : List Segment :=
  let n := appendArcCount angle
  let segmentAngle := angle / (n : ℝ)
  arcLoop center segmentAngle n.toNat start dst

/-- Modelled from the spec: a composable 2D affine map (type `affine2D` of
the repository, whose method bodies are not among the sources at hand;
§4.1 of the spec).  The map is `(x, y) ↦ (sx·x + hx·y + ox, hy·x + sy·y +
oy)`; the field defaults make the Go zero value the identity transform,
which is what `var ref affine2D` in `arcTransform` relies on. -/
structure affine2D where
  sx : ℝ := 1
  hx : ℝ := 0
  ox : ℝ := 0
  hy : ℝ := 0
  sy : ℝ := 1
  oy : ℝ := 0

/-- The identity transform (the Go zero value `affine2D{}`). -/
def affine2D.id : affine2D :=
  {}

/-- Modelled from the spec: point transformation (§4.1 `apply`). -/
def affine2D.Transform (t : affine2D) (p : Point) : Point :=
  Pt (t.sx * p.X + t.hx * p.Y + t.ox) (t.hy * p.X + t.sy * p.Y + t.oy)

/-- Modelled from the spec: composition `a.Mul b` applies `b` first and
then `a` (§4.1 `combine`; matrix product `a × b`). -/
def affine2D.Mul (a b : affine2D) : affine2D :=
  { sx := a.sx * b.sx + a.hx * b.hy
    hx := a.sx * b.hx + a.hx * b.sy
    ox := a.sx * b.ox + a.hx * b.oy + a.ox
    hy := a.hy * b.sx + a.sy * b.hy
    sy := a.hy * b.hx + a.sy * b.sy
    oy := a.hy * b.ox + a.sy * b.oy + a.oy }

/-- Modelled from the spec: `t.Offset d` is t followed by a translation by
d (§4.1 `offset`). -/
def affine2D.Offset (t : affine2D) (d : Point) : affine2D :=
  { t with ox := t.ox + d.X, oy := t.oy + d.Y }

/-- rotateAbout is the primitive rotation by a radians about a pivot,
counterclockwise. -/
noncomputable def rotateAbout (pivot : Point) (a : ℝ) : affine2D :=
  { sx := Real.cos a
    hx := -Real.sin a
    ox := pivot.X - Real.cos a * pivot.X + Real.sin a * pivot.Y
    hy := Real.sin a
    sy := Real.cos a
    oy := pivot.Y - Real.sin a * pivot.X - Real.cos a * pivot.Y }

/-- Modelled from the spec: `t.Rotate pivot a` is t followed by a rotation
by a radians about the pivot (§4.1 `rotate`). -/
noncomputable def affine2D.Rotate (t : affine2D) (pivot : Point) (a : ℝ) :
    affine2D :=
  (rotateAbout pivot a).Mul t

/-- scaleAbout is the primitive scaling by per-axis factors about a
pivot. -/
def scaleAbout (pivot factors : Point) : affine2D :=
  { sx := factors.X
    hx := 0
    ox := pivot.X - factors.X * pivot.X
    hy := 0
    sy := factors.Y
    oy := pivot.Y - factors.Y * pivot.Y }

/-- Modelled from the spec: `t.Scale pivot f` is t followed by a per-axis
scaling about the pivot (§4.1 `scale`). -/
def affine2D.Scale (t : affine2D) (pivot factors : Point) : affine2D :=
  (scaleAbout pivot factors).Mul t

/-- Modelled from the spec: the inverse transform; undefined (here:
divisions by a zero determinant) when the linear part is singular (§4.1
`invert`). -/
noncomputable def affine2D.Invert (t : affine2D) : affine2D :=
  let det := t.sx * t.sy - t.hx * t.hy
  { sx := t.sy / det
    hx := -t.hx / det
    ox := -(t.sy / det * t.ox + -t.hx / det * t.oy)
    hy := -t.hy / det
    sy := t.sx / det
    oy := -(-t.hy / det * t.ox + t.sx / det * t.oy) }

/-- dist returns the distance between two points, in `float64` (source:
`dist` in arc.go; `math.Hypot` is modelled by `hypot`). -/
noncomputable def dist (p1 p2 : Point) : ℝ :=
  hypot (p2.X - p1.X) (p2.Y - p1.Y)

/-- arcRadii is the radii/orientation block of the source's
`arcTransform` (arc.go lines 35–67): the semi axes rx, ry and the
major-axis angle alpha, with the degenerate case of a circle when the two
foci coincide.  `math.Acos` is modelled by `Real.arccos`. -/
noncomputable def arcRadii (p f1 f2 : Point) : ℝ × ℝ × ℝ :=
  if f1 = f2 then
    (dist f1 p, dist f1 p, 0)
  else
    let a := 0.5 * (dist f1 p + dist f2 p)
    let c := dist f1 f2 * 0.5
    let b := Real.sqrt (a * a - c * c)
    let rx := if a > b then a else b
    let ry := if a > b then b else a
    let alpha :=
      if f1.X = f2.X then
        (if f1.Y < f2.Y then -(Real.pi / 2) else Real.pi / 2)
      else Real.arccos (|f1.X - f2.X| * 0.5 / c)
    (rx, ry, alpha)

/-- arcTransform computes a transformation for generating bézier
approximations of an arc, together with the number of segments the sweep
is split into (source: `arcTransform` in arc.go; `int(math.Ceil s)` is the
ceiling `⌈s⌉` for the values in range). -/
noncomputable def arcTransform (p f1 f2 : Point) (angle : ℝ) :
    affine2D × ℤ :=
  let anglePerSegment := 2 * Real.pi / 16
  let s0 := angle / anglePerSegment
  let s := if s0 < 0 then -s0 else s0
  let segments : ℤ := if ⌈s⌉ ≤ 0 then 1 else ⌈s⌉
  let r := arcRadii p f1 f2
  let θ := angle / ((segments : ℤ) : ℝ)
  let center := Pt (0.5 * (f1.X + f2.X)) (0.5 * (f1.Y + f2.Y))
  let ref := (((affine2D.id).Offset ((Pt 0 0).Sub center)).Rotate (Pt 0 0)
    (-r.2.2)).Scale (Pt 0 0) (Pt (1 / r.1) (1 / r.2.1))
  let inv := ref.Invert
  let rot := (affine2D.id).Rotate (Pt 0 0) (0.5 * θ)
  ((inv.Mul rot).Mul ref, segments)

/-- AppendEllipticalArc appends one or more segments to dst, forming an
arc of an ellipse starting at start, with foci at f1 and f2 (source:
`AppendEllipticalArc`). -/
noncomputable def AppendEllipticalArc (dst : List Segment)
    (start f1 f2 : Point) (angle : ℝ) : List Segment :=
  if f1 = f2 then AppendArc dst start f1 angle
  else
    let semiMajorAxis := (distance start f1 + distance start f2) * 0.5
    let center := f1.Add ((f2.Sub f1).Mul 0.5)
    let focalDistance := distance center f1
    let semiMinorAxis :=
      Real.sqrt (semiMajorAxis * semiMajorAxis - focalDistance * focalDistance)
    let majorAxisAngle := heading (f2.Sub f1)
    let toUnitCircle := (((affine2D.id).Offset (center.Mul (-1))).Rotate
      (Pt 0 0) (-majorAxisAngle)).Scale (Pt 0 0)
      (Pt (1 / semiMajorAxis) (1 / semiMinorAxis))
    let toEllipse := toUnitCircle.Invert
    let unitCircleArc := AppendArc [] (toUnitCircle.Transform start) (Pt 0 0)
      angle
    dst ++ unitCircleArc.map fun s =>
      (⟨toEllipse.Transform s.Start, toEllipse.Transform s.CP1,
        toEllipse.Transform s.CP2, toEllipse.Transform s.End⟩ : Segment)

/-- Modelled from the spec: end-of-contour cap shapes (§3
`Cap: {Flat, Round, Square}`; the values named as in the test,
`RoundCap` etc.). -/
inductive CapStyle where
  | FlatCap : CapStyle
  | RoundCap : CapStyle
  | SquareCap : CapStyle

/-- Modelled from the spec: vertex join shapes (§3
`Join: {Round, Bevel, Miter}`). -/
inductive JoinStyle where
  | RoundJoin : JoinStyle
  | BevelJoin : JoinStyle
  | MiterJoin : JoinStyle

/-- Modelled from the spec: stroke configuration (§3 `StrokeOptions`; the
Go zero value of `MiterLimit` is 0, which is the default here so that the
test's literal `Options{Width: 10, Cap: RoundCap, Join: RoundJoin}` can be
written the same way). -/
structure Options where
  Width : ℝ
  Cap : CapStyle
  Join : JoinStyle
  MiterLimit : ℝ := 0

/-- Modelled from the spec: offsetting a piece of a contour (§4.4 step 3):
translate the control polygon by h along the local normals, taken as the
start and end tangents rotated 90 degrees. -/
noncomputable def offsetSegment (h : ℝ) (s : Segment) : Segment :=
  let n0 := rot90CW s.tangents.1
  let n1 := rot90CW s.tangents.2
  ⟨s.Start.Add (n0.Mul h), s.CP1.Add (n0.Mul h),
    s.CP2.Add (n1.Mul h), s.End.Add (n1.Mul h)⟩

/-- Modelled from the spec: whether a contour is closed (§3: closed iff
the last end point equals the first start point). -/
def isClosedContour (c : List Segment) : Prop :=
  ∀ first ∈ c.head?, ∀ last ∈ c.getLast?, last.End = first.Start

/-- Modelled from the spec: the outline contours produced for one
non-degenerate input contour (§4.4 steps 2–5): subdivide every segment at
its extrema, offset the pieces by half the width on the outer side and,
traversed backward, on the inner side; a closed contour yields the outer
and the inner offset as two contours, an open one yields their
concatenation as a single closed contour.  The cap and join geometry of
steps 4–5 is beyond what is needed here and is not modelled. -/
noncomputable def strokeOutline (o : Options) (c : List Segment) :
    List (List Segment) :=
  let pieces := c.flatMap Segment.splitAtExtrema
  let outer := pieces.map (offsetSegment (o.Width / 2))
  let inner := (reversePath pieces).map (offsetSegment (o.Width / 2))
  if isClosedContour c then [outer, inner] else [outer ++ inner]

/-- Modelled from the spec: the Stroke engine (function `Stroke` of the
repository, whose body is not among the sources at hand — only its test
is).  Per §4.4 step 1, a contour that reduces to a single point (all of
its segments zero-length, including the empty contour) contributes no
output contour; every other contour contributes its outline contours. -/
noncomputable def Stroke (p : List (List Segment)) (o : Options) :
    List (List Segment) :=
  p.flatMap fun c =>
    if ∀ s ∈ c, s.Start = s.End then [] else strokeOutline o c

/-- evalSegment is the mathematical cubic Bézier curve of a Segment, in
the Bernstein form; this is the "evaluates to" of the spec (§8
round-trip property). -/
def evalSegment (s : Segment) (t : ℝ) : Point :=
  ((s.Start.Mul ((1 - t) ^ 3)).Add (s.CP1.Mul (3 * (1 - t) ^ 2 * t))).Add
    ((s.CP2.Mul (3 * (1 - t) * t ^ 2)).Add (s.End.Mul (t ^ 3)))

/-- quadBezier is the mathematical quadratic Bézier curve with the given
start, control and end points (the spec's "quadratic formula's value"). -/
def quadBezier (start cp end_ : Point) (t : ℝ) : Point :=
  ((start).Mul ((1 - t) ^ 2)).Add
    (((cp).Mul (2 * (1 - t) * t)).Add ((end_).Mul (t ^ 2)))

/-- startTangentSpec is the start tangent as the spec describes it: the
unit vector from the start point toward the first control point — in the
order CP1, CP2, End — not coincident with the start point, and the zero
vector when all of them coincide with it. -/
noncomputable def startTangentSpec (s : Segment) : Point :=
  (([s.CP1, s.CP2, s.End].find? fun q => decide (q ≠ s.Start)).map
    fun p => unitVector (p.Sub s.Start)).getD (Pt 0 0)

/-- endTangentSpecLiteral is the end tangent read literally off the claim:
the unit vector from the end point toward the first control point — in
the order CP2, CP1, Start — not coincident with the end point, and the
zero vector when all of them coincide with it. -/
noncomputable def endTangentSpecLiteral (s : Segment) : Point :=
  (([s.CP2, s.CP1, s.Start].find? fun q => decide (q ≠ s.End)).map
    fun p => unitVector (p.Sub s.End)).getD (Pt 0 0)

/-- endTangentSpec is the end tangent with the direction the code uses:
the unit vector from the first control point — in the order CP2, CP1,
Start — not coincident with the end point, toward the end point, and the
zero vector when all of them coincide with it. -/
noncomputable def endTangentSpec (s : Segment) : Point :=
  (([s.CP2, s.CP1, s.Start].find? fun q => decide (q ≠ s.End)).map
    fun p => unitVector (s.End.Sub p)).getD (Pt 0 0)

attribute [ext] Point

attribute [ext] Segment

/-- Two points are equal iff they agree in both coordinates. -/
theorem Point.eq_iff {p q : Point} : p = q ↔ p.X = q.X ∧ p.Y = q.Y := by
  constructor
  · intro h
    exact ⟨congrArg Point.X h, congrArg Point.Y h⟩
  · intro h
    exact Point.ext h.1 h.2

/-- The difference of two points is zero exactly when they are equal. -/
theorem Point.sub_eq_zero_iff {p q : Point} : p.Sub q = Pt 0 0 ↔ p = q := by
  simp only [Point.Sub, Pt, Point.eq_iff]
  constructor
  · rintro ⟨h1, h2⟩
    exact ⟨by linarith, by linarith⟩
  · rintro ⟨h1, h2⟩
    exact ⟨by linarith, by linarith⟩

/-- A scaled point is zero exactly when the point is zero or the scalar
is. -/
theorem Point.mul_eq_zero_iff {p : Point} {k : ℝ} :
    p.Mul k = Pt 0 0 ↔ p = Pt 0 0 ∨ k = 0 := by
  simp only [Point.Mul, Pt, Point.eq_iff]
  constructor
  · rintro ⟨h1, h2⟩
    rcases mul_eq_zero.mp h1 with hx | hk
    · rcases mul_eq_zero.mp h2 with hy | hk
      · exact Or.inl ⟨hx, hy⟩
      · exact Or.inr hk
    · exact Or.inr hk
  · rintro (⟨hx, hy⟩ | hk)
    · rw [hx, hy]
      constructor <;> ring
    · rw [hk]
      constructor <;> ring

/-- Scaling by a positive factor does not change the unit vector. -/
theorem unitVector_mul_pos (p : Point) {k : ℝ} (hk : 0 < k) :
    unitVector (p.Mul k) = unitVector p := by
  by_cases hp : p = Pt 0 0
  · subst hp
    have h : (Pt (0 : ℝ) 0).Mul k = Pt 0 0 := by
      simp [Point.Mul, Pt]
    rw [h]
  · have hpk : p.Mul k ≠ Pt 0 0 := by
      intro h
      rcases Point.mul_eq_zero_iff.mp h with h' | h'
      · exact hp h'
      · exact hk.ne' h'
    rw [unitVector, if_neg hpk, unitVector, if_neg hp]
    have hh : hypot (p.Mul k).X (p.Mul k).Y = k * hypot p.X p.Y := by
      show Real.sqrt (p.X * k * (p.X * k) + p.Y * k * (p.Y * k)) = _
      have : p.X * k * (p.X * k) + p.Y * k * (p.Y * k) =
          k ^ 2 * (p.X * p.X + p.Y * p.Y) := by ring
      rw [this, Real.sqrt_mul (sq_nonneg k), Real.sqrt_sq hk.le, hypot]
    rw [hh]
    have hL : hypot p.X p.Y ≠ 0 := by
      intro h0
      apply hp
      have hnn : (0 : ℝ) ≤ p.X * p.X + p.Y * p.Y :=
        add_nonneg (mul_self_nonneg _) (mul_self_nonneg _)
      have hsum : p.X * p.X + p.Y * p.Y = 0 := (Real.sqrt_eq_zero hnn).mp h0
      have hx : p.X = 0 := by nlinarith [sq_nonneg p.X, sq_nonneg p.Y]
      have hy : p.Y = 0 := by nlinarith [sq_nonneg p.X, sq_nonneg p.Y]
      exact Point.ext hx hy
    ext
    · show p.X * k / (k * hypot p.X p.Y) = p.X / hypot p.X p.Y
      rw [mul_comm k (hypot p.X p.Y)]
      exact mul_div_mul_right p.X (hypot p.X p.Y) hk.ne'
    · show p.Y * k / (k * hypot p.X p.Y) = p.Y / hypot p.X p.Y
      rw [mul_comm k (hypot p.X p.Y)]
      exact mul_div_mul_right p.Y (hypot p.X p.Y) hk.ne'

/-- C7: for every Segment s, reversing twice is the identity, field-wise. -/
theorem C7_reverse_reverse (s : Segment) : s.reverse.reverse = s :=
  rfl

/-- C9: the elliptical arc with coincident foci is the circular arc: the
coincident-foci branch of `AppendEllipticalArc` delegates to `AppendArc`,
and the radii block of `arcTransform` uses `dist f p` for both semi
axes (and a zero major-axis angle). -/
theorem C9_coincident_foci (dst : List Segment) (start f p : Point)
    (angle : ℝ) :
    AppendEllipticalArc dst start f f angle = AppendArc dst start f angle ∧
    arcRadii p f f = (dist f p, dist f p, 0) := by
  constructor
  · rw [AppendEllipticalArc, if_pos rfl]
  · rw [arcRadii, if_pos rfl]

/-- C1: stroking a path all of whose contours consist only of zero-length
segments yields an empty path. -/
theorem C1_zero_length_stroke_empty (p : List (List Segment)) (o : Options)
    (h : ∀ c ∈ p, ∀ s ∈ c, s.Start = s.End) : Stroke p o = [] := by
  rw [Stroke, List.flatMap_eq_nil_iff]
  intro c hc
  rw [if_pos (h c hc)]

/-- Witness for C1: the test's input, a single contour holding the single
zero-length segment `LinearSegment((0,0),(0,0))`, stroked with width 10
and round cap and join, yields the empty path. -/
theorem C1_zero_length_stroke_empty_witness :
    (∀ c ∈ [[LinearSegment (Pt 0 0) (Pt 0 0)]], ∀ s ∈ c, s.Start = s.End) ∧
    Stroke [[LinearSegment (Pt 0 0) (Pt 0 0)]]
      ⟨10, CapStyle.RoundCap, JoinStyle.RoundJoin, 0⟩ = [] := by
  have h : ∀ c ∈ [[LinearSegment (Pt 0 0) (Pt 0 0)]], ∀ s ∈ c,
      s.Start = s.End := by
    intro c hc s hs
    rw [List.mem_singleton] at hc
    subst hc
    rw [List.mem_singleton] at hs
    subst hs
    rfl
  exact ⟨h, C1_zero_length_stroke_empty _ _ h⟩

/-- The count of sub-arcs of `AppendArc` is at least one. -/
theorem one_le_appendArcCount (angle : ℝ) : 1 ≤ appendArcCount angle := by
  rw [appendArcCount, Int.le_floor]
  push_cast
  have := abs_nonneg angle
  linarith

/-- The segment count returned by `arcTransform` is the ceiling of the
sweep magnitude divided by the per-segment angle, clamped to at least
one. -/
theorem arcTransform_snd (p f1 f2 : Point) (angle : ℝ) :
    (arcTransform p f1 f2 angle).2 =
      (if ⌈|angle| / (2 * Real.pi / 16)⌉ ≤ 0 then 1
        else ⌈|angle| / (2 * Real.pi / 16)⌉) := by
  have hpi : (0 : ℝ) < 2 * Real.pi / 16 := by positivity
  have habs : (if angle / (2 * Real.pi / 16) < 0 then
      -(angle / (2 * Real.pi / 16)) else angle / (2 * Real.pi / 16)) =
      |angle| / (2 * Real.pi / 16) := by
    by_cases h : angle / (2 * Real.pi / 16) < 0
    · rw [if_pos h, ← abs_of_neg h, abs_div, abs_of_pos hpi]
    · rw [if_neg h, ← abs_of_nonneg (le_of_not_lt h), abs_div, abs_of_pos hpi]
  show (if ⌈if angle / (2 * Real.pi / 16) < 0 then
      -(angle / (2 * Real.pi / 16)) else angle / (2 * Real.pi / 16)⌉ ≤ 0
    then (1 : ℤ)
    else ⌈if angle / (2 * Real.pi / 16) < 0 then
      -(angle / (2 * Real.pi / 16)) else angle / (2 * Real.pi / 16)⌉) = _
  rw [habs]

/-- C3: both arc approximators split the sweep into equal sub-arcs of
bounded magnitude: `AppendArc` uses `⌊|angle|+1⌋ ≥ 1` sub-arcs, each of
magnitude at most one radian, and `arcTransform` uses at least one segment
(a nonpositive ceiling is clamped to one), each of magnitude at most
`2π/16`. -/
theorem C3_subarc_bounds (p f1 f2 : Point) (angle : ℝ) :
    1 ≤ appendArcCount angle ∧
    |angle / ((appendArcCount angle : ℤ) : ℝ)| ≤ 1 ∧
    1 ≤ (arcTransform p f1 f2 angle).2 ∧
    |angle / (((arcTransform p f1 f2 angle).2 : ℤ) : ℝ)| ≤ 2 * Real.pi / 16 := by
  have hpi : (0 : ℝ) < 2 * Real.pi / 16 := by positivity
  refine ⟨one_le_appendArcCount angle, ?_, ?_, ?_⟩
  · have h1 : 1 ≤ appendArcCount angle := one_le_appendArcCount angle
    have hn : (1 : ℝ) ≤ ((appendArcCount angle : ℤ) : ℝ) := by
      exact_mod_cast h1
    have hn0 : (0 : ℝ) < ((appendArcCount angle : ℤ) : ℝ) := by linarith
    rw [abs_div, abs_of_pos hn0, div_le_one hn0]
    have hfl : (⌊|angle| + 1⌋ : ℤ) = ⌊|angle|⌋ + 1 := Int.floor_add_one |angle|
    rw [appendArcCount, hfl]
    push_cast
    linarith [Int.lt_floor_add_one |angle|]
  · rw [arcTransform_snd]
    by_cases hc : ⌈|angle| / (2 * Real.pi / 16)⌉ ≤ 0
    · rw [if_pos hc]
    · rw [if_neg hc]
      omega
  · rw [arcTransform_snd]
    by_cases hc : ⌈|angle| / (2 * Real.pi / 16)⌉ ≤ 0
    · rw [if_pos hc]
      have hceil : |angle| / (2 * Real.pi / 16) ≤ ((0 : ℤ) : ℝ) :=
        Int.ceil_le.mp hc
      push_cast at hceil
      rw [div_le_iff₀ hpi] at hceil
      have h0 : |angle| = 0 :=
        le_antisymm (by linarith) (abs_nonneg angle)
      have ha0 : angle = 0 := abs_eq_zero.mp h0
      rw [ha0]
      push_cast
      rw [zero_div, abs_zero]
      linarith
    · rw [if_neg hc]
      push_neg at hc
      have hcr : (1 : ℝ) ≤ ((⌈|angle| / (2 * Real.pi / 16)⌉ : ℤ) : ℝ) := by
        exact_mod_cast hc
      have hcr0 : (0 : ℝ) < ((⌈|angle| / (2 * Real.pi / 16)⌉ : ℤ) : ℝ) := by
        linarith
      rw [abs_div, abs_of_pos hcr0, div_le_iff₀ hcr0]
      have hsc : |angle| / (2 * Real.pi / 16) ≤
          ((⌈|angle| / (2 * Real.pi / 16)⌉ : ℤ) : ℝ) := Int.le_ceil _
      rw [div_le_iff₀ hpi] at hsc
      linarith

/-- Unfolding one iteration of `arcLoop` with an empty accumulator. -/
theorem arcLoop_succ (center : Point) (a : ℝ) (n : ℕ) (pos : Point)
    (dst : List Segment) :
    arcLoop center a (n + 1) pos dst =
      arcLoop center a n (ArcSegment pos center a).End
        (dst ++ [ArcSegment pos center a]) :=
  rfl

/-- The accumulator of `arcLoop` is only appended to. -/
theorem arcLoop_append (center : Point) (a : ℝ) (n : ℕ) :
    ∀ (pos : Point) (dst : List Segment),
      arcLoop center a n pos dst = dst ++ arcLoop center a n pos [] := by
  induction n with
  | zero =>
    intro pos dst
    simp [arcLoop]
  | succ n ih =>
    intro pos dst
    rw [arcLoop_succ, arcLoop_succ, ih, ih _ ([] ++ [ArcSegment pos center a])]
    simp

/-- The head of the chain built by `arcLoop` starts at the current
position. -/
theorem arcLoop_head_start (center : Point) (a : ℝ) (n : ℕ) (pos : Point) :
    ∀ s ∈ (arcLoop center a n pos []).head?, s.Start = pos := by
  cases n with
  | zero =>
    intro s hs
    simp [arcLoop] at hs
  | succ n =>
    intro s hs
    rw [arcLoop_succ, arcLoop_append, List.nil_append,
      List.singleton_append, List.head?_cons, Option.mem_some_iff] at hs
    rw [← hs]
    rfl

/-- The segments built by `arcLoop` form a connected chain: each one
starts where the previous one ended. -/
theorem arcLoop_chain (center : Point) (a : ℝ) (n : ℕ) :
    ∀ pos : Point,
      List.Chain' (fun u v => v.Start = u.End) (arcLoop center a n pos []) := by
  induction n with
  | zero =>
    intro pos
    simp [arcLoop]
  | succ n ih =>
    intro pos
    rw [arcLoop_succ, arcLoop_append, List.nil_append,
      List.singleton_append, List.chain'_cons']
    exact ⟨fun y hy => arcLoop_head_start center a n _ y hy, ih _⟩

/-- C10: `AppendArc` leaves dst unchanged as a prefix and appends a
nonempty connected chain of segments: the first appended segment starts at
`start` and every later one starts exactly where its predecessor ended. -/
theorem C10_appendArc_chain (dst : List Segment) (start center : Point)
    (angle : ℝ) :
    ∃ s rest,
      AppendArc dst start center angle = dst ++ s :: rest ∧
      s.Start = start ∧
      List.Chain' (fun u v => v.Start = u.End) (s :: rest) := by
  have h1 : 1 ≤ (appendArcCount angle).toNat := by
    have := one_le_appendArcCount angle
    omega
  obtain ⟨m, hm⟩ : ∃ m, (appendArcCount angle).toNat = m + 1 :=
    ⟨(appendArcCount angle).toNat - 1, by omega⟩
  rw [AppendArc]
  set a := angle / ((appendArcCount angle : ℤ) : ℝ) with ha
  rw [hm, arcLoop_succ, arcLoop_append]
  refine ⟨ArcSegment start center a,
    arcLoop center a m (ArcSegment start center a).End [], by simp, rfl, ?_⟩
  have := arcLoop_chain center a (m + 1) start
  rw [arcLoop_succ, arcLoop_append, List.nil_append,
    List.singleton_append] at this
  exact this

/-- Elements of `compactAux` all come from the input list. -/
theorem mem_of_mem_compactAux {x : ℝ} :
    ∀ (last : ℝ) (l : List ℝ), x ∈ compactAux last l → x ∈ l := by
  intro last l
  induction l generalizing last with
  | nil =>
    intro h
    simp [compactAux] at h
  | cons v vs ih =>
    intro h
    rw [compactAux] at h
    by_cases hv : v = last
    · rw [if_pos hv] at h
      exact List.mem_cons_of_mem v (ih last h)
    · rw [if_neg hv] at h
      rcases List.mem_cons.mp h with h1 | h1
      · rw [h1]
        exact List.mem_cons_self v vs
      · exact List.mem_cons_of_mem v (ih v h1)

/-- An element of the input list survives `compactAux` unless it equals
the carried last value. -/
theorem mem_compactAux_of_mem {x : ℝ} :
    ∀ (last : ℝ) (l : List ℝ), x ∈ l → x = last ∨ x ∈ compactAux last l := by
  intro last l
  induction l generalizing last with
  | nil =>
    intro h
    simp at h
  | cons v vs ih =>
    intro h
    by_cases hv : v = last
    · rw [compactAux, if_pos hv]
      rcases List.mem_cons.mp h with h1 | h1
      · exact Or.inl (h1.trans hv)
      · exact ih last h1
    · rw [compactAux, if_neg hv]
      rcases List.mem_cons.mp h with h1 | h1
      · rw [h1]
        exact Or.inr (List.mem_cons_self v _)
      · rcases ih v h1 with h2 | h2
        · rw [h2]
          exact Or.inr (List.mem_cons_self v _)
        · exact Or.inr (List.mem_cons_of_mem v h2)

/-- `compact` preserves membership. -/
theorem mem_compact_of_mem {x : ℝ} (l : List ℝ) (h : x ∈ l) :
    x ∈ compact l := by
  cases l with
  | nil => simp at h
  | cons y ys =>
    show x ∈ y :: compactAux y ys
    rcases List.mem_cons.mp h with h1 | h1
    · rw [h1]
      exact List.mem_cons_self y _
    · rcases mem_compactAux_of_mem y ys h1 with h2 | h2
      · rw [h2]
        exact List.mem_cons_self y _
      · exact List.mem_cons_of_mem y h2

/-- Elements of `compact` all come from the input list. -/
theorem mem_of_mem_compact {x : ℝ} (l : List ℝ) (h : x ∈ compact l) :
    x ∈ l := by
  cases l with
  | nil => simp [compact] at h
  | cons y ys =>
    rcases List.mem_cons.mp h with h1 | h1
    · rw [h1]
      exact List.mem_cons_self y _
    · exact List.mem_cons_of_mem y (mem_of_mem_compactAux y ys h1)

/-- On a weakly sorted list whose elements are at least the carried value,
`compactAux` produces a strictly sorted list of elements strictly above
the carried value. -/
theorem sorted_lt_compactAux :
    ∀ (last : ℝ) (l : List ℝ), l.Sorted (· ≤ ·) → (∀ y ∈ l, last ≤ y) →
      (compactAux last l).Sorted (· < ·) ∧
      ∀ y ∈ compactAux last l, last < y := by
  intro last l
  induction l generalizing last with
  | nil =>
    intro _ _
    constructor
    · simp [compactAux]
    · intro y hy
      simp [compactAux] at hy
  | cons v vs ih =>
    intro hs hge
    rw [List.sorted_cons] at hs
    by_cases hv : v = last
    · rw [compactAux, if_pos hv]
      refine ih last hs.2 ?_
      intro y hy
      rw [← hv]
      exact hs.1 y hy
    · rw [compactAux, if_neg hv]
      have hlv : last < v :=
        lt_of_le_of_ne (hge v (List.mem_cons_self v vs)) fun h => hv h.symm
      obtain ⟨ih1, ih2⟩ := ih v hs.2 hs.1
      constructor
      · rw [List.sorted_cons]
        exact ⟨ih2, ih1⟩
      · intro y hy
        rcases List.mem_cons.mp hy with h1 | h1
        · rw [h1]
          exact hlv
        · exact lt_trans hlv (ih2 y h1)

/-- On a weakly sorted list, `compact` produces a strictly sorted (hence
duplicate-free) list. -/
theorem sorted_lt_compact (l : List ℝ) (h : l.Sorted (· ≤ ·)) :
    (compact l).Sorted (· < ·) := by
  cases l with
  | nil =>
    simp [compact]
  | cons x xs =>
    rw [List.sorted_cons] at h
    obtain ⟨h1, h2⟩ := sorted_lt_compactAux x xs h.2 h.1
    show (x :: compactAux x xs).Sorted (· < ·)
    rw [List.sorted_cons]
    exact ⟨h2, h1⟩

/-- The postprocessing pipeline of `extrema` — clamp out-of-range
candidates to 0, append the endpoints 0 and 1, sort, remove duplicates —
yields a strictly sorted list inside [0,1] containing 0 and 1, whatever
candidate roots are fed into it. -/
theorem extremaPipeline_props (r : List ℝ) :
    (0 : ℝ) ∈ compact (List.insertionSort (· ≤ ·)
      ((r ++ [0, 1]).map fun v => if v < 0 ∨ v > 1 then 0 else v)) ∧
    (1 : ℝ) ∈ compact (List.insertionSort (· ≤ ·)
      ((r ++ [0, 1]).map fun v => if v < 0 ∨ v > 1 then 0 else v)) ∧
    (compact (List.insertionSort (· ≤ ·)
      ((r ++ [0, 1]).map fun v => if v < 0 ∨ v > 1 then 0 else v))).Sorted
      (· < ·) ∧
    ∀ x ∈ compact (List.insertionSort (· ≤ ·)
      ((r ++ [0, 1]).map fun v => if v < 0 ∨ v > 1 then 0 else v)),
      0 ≤ x ∧ x ≤ 1 := by
  have h0 : (0 : ℝ) ∈ (r ++ [0, 1]).map
      fun v => if v < 0 ∨ v > 1 then 0 else v := by
    refine List.mem_map.mpr ⟨0, by simp, ?_⟩
    norm_num
  have h1 : (1 : ℝ) ∈ (r ++ [0, 1]).map
      fun v => if v < 0 ∨ v > 1 then 0 else v := by
    refine List.mem_map.mpr ⟨1, by simp, ?_⟩
    norm_num
  have hrange : ∀ x ∈ (r ++ [0, 1]).map
      (fun v => if v < 0 ∨ v > 1 then 0 else v), 0 ≤ x ∧ x ≤ 1 := by
    intro x hx
    obtain ⟨v, _, hfv⟩ := List.mem_map.mp hx
    rw [← hfv]
    by_cases hcond : v < 0 ∨ v > 1
    · rw [if_pos hcond]
      norm_num
    · rw [if_neg hcond]
      push_neg at hcond
      exact ⟨hcond.1, hcond.2⟩
  have hsort : (List.insertionSort (· ≤ ·) ((r ++ [0, 1]).map
      fun v => if v < 0 ∨ v > 1 then 0 else v)).Sorted (· ≤ ·) :=
    List.sorted_insertionSort (· ≤ ·) _
  refine ⟨mem_compact_of_mem _ (List.mem_insertionSort _ |>.mpr h0),
    mem_compact_of_mem _ (List.mem_insertionSort _ |>.mpr h1),
    sorted_lt_compact _ hsort, ?_⟩
  intro x hx
  exact hrange x (List.mem_insertionSort _ |>.mp
    (mem_of_mem_compact _ hx))

/-- C2: for every Segment, `extrema` contains the parameters 0 and 1, is
strictly sorted ascending (hence has no duplicates), and all of its
values lie in [0,1] (out-of-range candidate roots are discarded; the NaN
case of the Go code cannot arise over `ℝ`). -/
theorem C2_extrema_props (s : Segment) :
    (0 : ℝ) ∈ s.extrema ∧ (1 : ℝ) ∈ s.extrema ∧
    s.extrema.Sorted (· < ·) ∧
    List.Forall (fun v => 0 ≤ v ∧ v ≤ 1) s.extrema := by
  refine ⟨(extremaPipeline_props _).1, (extremaPipeline_props _).2.1,
    (extremaPipeline_props _).2.2.1, ?_⟩
  rw [List.forall_iff_forall_mem]
  exact (extremaPipeline_props _).2.2.2

/-- C4: `ArcSegment` places its control points with the kappa factor
`tan(angle/4)·4/3` along the rotated chord-tangent directions, its end
point is at angular position `startAngle + angle` on the circle through
the start point around the center (hence at the start point's distance
from the center), and the quarter-circle instance from (1,0) around the
origin ends within 1e-5 of (0,1). -/
theorem C4_arcSegment (start center : Point) (angle : ℝ) :
    (ArcSegment start center angle).CP1 =
      start.Add ((rot90CW (center.Sub start)).Mul
        (Real.tan (angle / 4) * 4 / 3)) ∧
    (ArcSegment start center angle).CP2 =
      (ArcSegment start center angle).End.Add
        ((rot90CW ((ArcSegment start center angle).End.Sub center)).Mul
          (Real.tan (angle / 4) * 4 / 3)) ∧
    (ArcSegment start center angle).End =
      Pt (center.X + distance start center *
          Real.cos (heading (start.Sub center) + angle))
        (center.Y + distance start center *
          Real.sin (heading (start.Sub center) + angle)) ∧
    distance (ArcSegment start center angle).End center =
      distance start center ∧
    |(ArcSegment (Pt 1 0) (Pt 0 0) (Real.pi / 2)).End.X - 0| ≤ 1e-5 ∧
    |(ArcSegment (Pt 1 0) (Pt 0 0) (Real.pi / 2)).End.Y - 1| ≤ 1e-5 := by
  have hq_head : heading ((Pt 1 0).Sub (Pt 0 0)) = 0 := by
    have h10 : (Pt (1 : ℝ) 0).Sub (Pt 0 0) = Pt 1 0 := by
      ext <;> simp [Point.Sub, Pt]
    rw [h10]
    show atan2 0 1 = 0
    rw [atan2, if_pos (by norm_num : (0 : ℝ) < 1)]
    norm_num [Real.arctan_zero]
  have hdist1 : distance (Pt 1 0) (Pt 0 0) = 1 := by
    show Real.sqrt (((Pt (0:ℝ) 0).X - (Pt (1:ℝ) 0).X) *
      ((Pt (0:ℝ) 0).X - (Pt (1:ℝ) 0).X) + ((Pt (0:ℝ) 0).Y - (Pt (1:ℝ) 0).Y) *
      ((Pt (0:ℝ) 0).Y - (Pt (1:ℝ) 0).Y)) = 1
    norm_num [Pt]
  have hEgen : ∀ s c : Point, ∀ a : ℝ, (ArcSegment s c a).End =
      Pt (c.X + distance s c * Real.cos (heading (s.Sub c) + a))
        (c.Y + distance s c * Real.sin (heading (s.Sub c) + a)) :=
    fun _ _ _ => rfl
  have hdistE : distance (ArcSegment start center angle).End center =
      distance start center := by
    rw [hEgen]
    set θ := heading (start.Sub center) + angle
    set r := distance start center with hr
    have hrnn : 0 ≤ r := Real.sqrt_nonneg _
    show Real.sqrt
      ((center.X - (center.X + r * Real.cos θ)) *
        (center.X - (center.X + r * Real.cos θ)) +
       (center.Y - (center.Y + r * Real.sin θ)) *
        (center.Y - (center.Y + r * Real.sin θ))) = r
    have hsq : (center.X - (center.X + r * Real.cos θ)) *
        (center.X - (center.X + r * Real.cos θ)) +
        (center.Y - (center.Y + r * Real.sin θ)) *
        (center.Y - (center.Y + r * Real.sin θ)) =
        r ^ 2 * (Real.cos θ ^ 2 + Real.sin θ ^ 2) := by
      ring
    rw [hsq, Real.cos_sq_add_sin_sq, mul_one, Real.sqrt_sq hrnn]
  have hEq : (ArcSegment (Pt 1 0) (Pt 0 0) (Real.pi / 2)).End = Pt 0 1 := by
    rw [hEgen, hq_head, hdist1]
    ext
    · show (0 : ℝ) + 1 * Real.cos (0 + Real.pi / 2) = 0
      simp [Real.cos_pi_div_two]
    · show (0 : ℝ) + 1 * Real.sin (0 + Real.pi / 2) = 1
      simp [Real.sin_pi_div_two]
  refine ⟨rfl, rfl, rfl, hdistE, ?_, ?_⟩
  · rw [hEq]
    show |(0 : ℝ) - 0| ≤ 1e-5
    norm_num
  · rw [hEq]
    show |(1 : ℝ) - 1| ≤ 1e-5
    norm_num

/-- The deviation of the source's 16-digit literal from the exact ratio
2/3 produces a bounded evaluation error on bounded control polygons. -/
theorem quadratic_offset_err (dx1 dx2 t : ℝ) (h0 : 0 ≤ t) (h1 : t ≤ 1)
    (hb1 : |dx1| ≤ 10 ^ 12) (hb2 : |dx2| ≤ 10 ^ 12) :
    |3 * t * (1 - t) * ((0.6666666666666666 : ℝ) - 2 / 3) *
      ((1 - t) * dx1 + t * dx2)| ≤ 1e-4 := by
  have htt0 : 0 ≤ t * (1 - t) := mul_nonneg h0 (by linarith)
  have htt : t * (1 - t) ≤ 1 / 4 := by nlinarith [sq_nonneg (t - 1 / 2)]
  have hu : |(1 - t) * dx1 + t * dx2| ≤ 10 ^ 12 := by
    calc |(1 - t) * dx1 + t * dx2| ≤ |(1 - t) * dx1| + |t * dx2| :=
          abs_add _ _
      _ = (1 - t) * |dx1| + t * |dx2| := by
          rw [abs_mul, abs_mul,
            abs_of_nonneg (by linarith : (0 : ℝ) ≤ 1 - t), abs_of_nonneg h0]
      _ ≤ (1 - t) * 10 ^ 12 + t * 10 ^ 12 :=
          add_le_add
            (mul_le_mul_of_nonneg_left hb1 (by linarith))
            (mul_le_mul_of_nonneg_left hb2 h0)
      _ = 10 ^ 12 := by ring
  rw [abs_le] at hu
  have hA : t * (1 - t) * ((1 - t) * dx1 + t * dx2) ≤
      t * (1 - t) * 10 ^ 12 :=
    mul_le_mul_of_nonneg_left hu.2 htt0
  have hB : t * (1 - t) * 10 ^ 12 ≤ 1 / 4 * 10 ^ 12 :=
    mul_le_mul_of_nonneg_right htt (by norm_num)
  have hC : t * (1 - t) * (-(10 ^ 12)) ≤
      t * (1 - t) * ((1 - t) * dx1 + t * dx2) :=
    mul_le_mul_of_nonneg_left hu.1 htt0
  have hD : -(1 / 4 * 10 ^ 12) ≤ t * (1 - t) * (-(10 ^ 12 : ℝ)) := by
    nlinarith [htt]
  have hK : (0.6666666666666666 : ℝ) - 2 / 3 = -(2 / (3 * 10 ^ 16)) := by
    norm_num
  have hrw : 3 * t * (1 - t) * ((0.6666666666666666 : ℝ) - 2 / 3) *
      ((1 - t) * dx1 + t * dx2) =
      -(2 / 10 ^ 16) * (t * (1 - t) * ((1 - t) * dx1 + t * dx2)) := by
    rw [hK]
    ring
  rw [hrw]
  rw [abs_le]
  constructor
  · nlinarith
  · nlinarith

/-- C5 as stated is false: at `start = end = (0,0)`, `cp = (10^13, 0)` and
`t = 1/2`, the cubic produced by `QuadraticSegment` deviates from the
exact quadratic value by 1/2000 > 1e-4, because the conversion uses the
literal `0.6666666666666666` rather than the exact ratio 2/3. -/
theorem C5_counterexample :
    ¬ (|(evalSegment (QuadraticSegment (Pt 0 0) (Pt (10 ^ 13) 0) (Pt 0 0))
          (1 / 2)).X -
        (quadBezier (Pt 0 0) (Pt (10 ^ 13) 0) (Pt 0 0) (1 / 2)).X| ≤ 1e-4) := by
  have hdiff : (evalSegment (QuadraticSegment (Pt 0 0) (Pt (10 ^ 13) 0)
      (Pt 0 0)) (1 / 2)).X -
      (quadBezier (Pt 0 0) (Pt (10 ^ 13) 0) (Pt 0 0) (1 / 2)).X =
      -(1 / 2000) := by
    simp only [evalSegment, QuadraticSegment, quadBezier, interpolate,
      Point.Mul, Point.Add, Pt]
    norm_num
  rw [hdiff, abs_neg, abs_of_pos (by norm_num : (0 : ℝ) < 1 / 2000)]
  norm_num

/-- C5 amended: `LinearSegment` is exact — it evaluates to the straight
line interpolation and its control points sit at the 1/3 and 2/3 chord
positions — and `QuadraticSegment` matches the quadratic Bézier value
within 1e-4 for `t` in [0,1] provided the control point is within 10^12 of
the endpoints coordinate-wise (the tolerance cannot hold for arbitrarily
large coordinates, as the counterexample shows). -/
theorem C5_constructors (a b start cp end_ : Point) (t : ℝ)
    (h0 : 0 ≤ t) (h1 : t ≤ 1)
    (hx1 : |cp.X - start.X| ≤ 10 ^ 12) (hy1 : |cp.Y - start.Y| ≤ 10 ^ 12)
    (hx2 : |cp.X - end_.X| ≤ 10 ^ 12) (hy2 : |cp.Y - end_.Y| ≤ 10 ^ 12) :
    evalSegment (LinearSegment a b) t = interpolate t a b ∧
    (LinearSegment a b).CP1 = interpolate (1 / 3) a b ∧
    (LinearSegment a b).CP2 = interpolate (2 / 3) a b ∧
    |(evalSegment (QuadraticSegment start cp end_) t).X -
      (quadBezier start cp end_ t).X| ≤ 1e-4 ∧
    |(evalSegment (QuadraticSegment start cp end_) t).Y -
      (quadBezier start cp end_ t).Y| ≤ 1e-4 := by
  refine ⟨?_, ?_, ?_, ?_, ?_⟩
  · ext
    · show (a.X * (1 - t) ^ 3 + (a.X + (b.X - a.X) / 3) *
          (3 * (1 - t) ^ 2 * t)) + ((b.X - (b.X - a.X) / 3) *
          (3 * (1 - t) * t ^ 2) + b.X * t ^ 3) =
        a.X * (1 - t) + b.X * t
      ring
    · show (a.Y * (1 - t) ^ 3 + (a.Y + (b.Y - a.Y) / 3) *
          (3 * (1 - t) ^ 2 * t)) + ((b.Y - (b.Y - a.Y) / 3) *
          (3 * (1 - t) * t ^ 2) + b.Y * t ^ 3) =
        a.Y * (1 - t) + b.Y * t
      ring
  · ext
    · show a.X + (b.X - a.X) / 3 = a.X * (1 - 1 / 3) + b.X * (1 / 3)
      ring
    · show a.Y + (b.Y - a.Y) / 3 = a.Y * (1 - 1 / 3) + b.Y * (1 / 3)
      ring
  · ext
    · show b.X - (b.X - a.X) / 3 = a.X * (1 - 2 / 3) + b.X * (2 / 3)
      ring
    · show b.Y - (b.Y - a.Y) / 3 = a.Y * (1 - 2 / 3) + b.Y * (2 / 3)
      ring
  · have key : (evalSegment (QuadraticSegment start cp end_) t).X -
        (quadBezier start cp end_ t).X =
        3 * t * (1 - t) * ((0.6666666666666666 : ℝ) - 2 / 3) *
          ((1 - t) * (cp.X - start.X) + t * (cp.X - end_.X)) := by
      simp only [evalSegment, QuadraticSegment, quadBezier, interpolate,
        Point.Mul, Point.Add, Pt]
      ring
    rw [key]
    exact quadratic_offset_err _ _ t h0 h1 hx1 hx2
  · have key : (evalSegment (QuadraticSegment start cp end_) t).Y -
        (quadBezier start cp end_ t).Y =
        3 * t * (1 - t) * ((0.6666666666666666 : ℝ) - 2 / 3) *
          ((1 - t) * (cp.Y - start.Y) + t * (cp.Y - end_.Y)) := by
      simp only [evalSegment, QuadraticSegment, quadBezier, interpolate,
        Point.Mul, Point.Add, Pt]
      ring
    rw [key]
    exact quadratic_offset_err _ _ t h0 h1 hy1 hy2

/-- Witness for the amended C5 at `a=(0,0)`, `b=(1,1)`, `start=(0,0)`,
`cp=(1,2)`, `end=(3,0)` and `t = 1/2`. -/
theorem C5_constructors_witness :
    ((0 : ℝ) ≤ 1 / 2 ∧ (1 / 2 : ℝ) ≤ 1 ∧
      |(Pt (1 : ℝ) 2).X - (Pt (0 : ℝ) 0).X| ≤ 10 ^ 12 ∧
      |(Pt (1 : ℝ) 2).Y - (Pt (0 : ℝ) 0).Y| ≤ 10 ^ 12 ∧
      |(Pt (1 : ℝ) 2).X - (Pt (3 : ℝ) 0).X| ≤ 10 ^ 12 ∧
      |(Pt (1 : ℝ) 2).Y - (Pt (3 : ℝ) 0).Y| ≤ 10 ^ 12) ∧
    (evalSegment (LinearSegment (Pt 0 0) (Pt 1 1)) (1 / 2) =
        interpolate (1 / 2) (Pt 0 0) (Pt 1 1) ∧
      (LinearSegment (Pt 0 0) (Pt 1 1)).CP1 =
        interpolate (1 / 3) (Pt 0 0) (Pt 1 1) ∧
      (LinearSegment (Pt 0 0) (Pt 1 1)).CP2 =
        interpolate (2 / 3) (Pt 0 0) (Pt 1 1) ∧
      |(evalSegment (QuadraticSegment (Pt 0 0) (Pt 1 2) (Pt 3 0))
          (1 / 2)).X -
        (quadBezier (Pt 0 0) (Pt 1 2) (Pt 3 0) (1 / 2)).X| ≤ 1e-4 ∧
      |(evalSegment (QuadraticSegment (Pt 0 0) (Pt 1 2) (Pt 3 0))
          (1 / 2)).Y -
        (quadBezier (Pt 0 0) (Pt 1 2) (Pt 3 0) (1 / 2)).Y| ≤ 1e-4) := by
  have hA : (0 : ℝ) ≤ 1 / 2 := by norm_num
  have hB : (1 / 2 : ℝ) ≤ 1 := by norm_num
  have h1 : |(Pt (1 : ℝ) 2).X - (Pt (0 : ℝ) 0).X| ≤ 10 ^ 12 := by
    show |(1 : ℝ) - 0| ≤ 10 ^ 12
    norm_num
  have h2 : |(Pt (1 : ℝ) 2).Y - (Pt (0 : ℝ) 0).Y| ≤ 10 ^ 12 := by
    show |(2 : ℝ) - 0| ≤ 10 ^ 12
    norm_num
  have h3 : |(Pt (1 : ℝ) 2).X - (Pt (3 : ℝ) 0).X| ≤ 10 ^ 12 := by
    show |(1 : ℝ) - 3| ≤ 10 ^ 12
    rw [abs_le]
    norm_num
  have h4 : |(Pt (1 : ℝ) 2).Y - (Pt (3 : ℝ) 0).Y| ≤ 10 ^ 12 := by
    show |(2 : ℝ) - 0| ≤ 10 ^ 12
    norm_num
  exact ⟨⟨hA, hB, h1, h2, h3, h4⟩,
    C5_constructors (Pt 0 0) (Pt 1 1) (Pt 0 0) (Pt 1 2) (Pt 3 0) (1 / 2)
      hA hB h1 h2 h3 h4⟩

/-- The start tangent, written out. -/
theorem tangents_fst (s : Segment) :
    s.tangents.1 =
      if s.CP1 ≠ s.Start then unitVector (s.CP1.Sub s.Start)
      else if s.CP2 ≠ s.Start then unitVector (s.CP2.Sub s.Start)
      else unitVector (s.End.Sub s.Start) :=
  rfl

/-- The end tangent, written out. -/
theorem tangents_snd (s : Segment) :
    s.tangents.2 =
      if s.CP2 ≠ s.End then unitVector (s.End.Sub s.CP2)
      else if s.CP1 ≠ s.End then unitVector (s.End.Sub s.CP1)
      else unitVector (s.End.Sub s.Start) :=
  rfl

/-- A nonzero point has a positive square norm. -/
theorem sumsq_pos_of_ne {p : Point} (hp : p ≠ Pt 0 0) :
    0 < p.X * p.X + p.Y * p.Y := by
  rcases lt_or_eq_of_le
      (add_nonneg (mul_self_nonneg p.X) (mul_self_nonneg p.Y)) with h | h
  · exact h
  · exfalso
    apply hp
    have hx : p.X = 0 := by nlinarith [mul_self_nonneg p.X, mul_self_nonneg p.Y]
    have hy : p.Y = 0 := by nlinarith [mul_self_nonneg p.X, mul_self_nonneg p.Y]
    exact Point.ext hx hy

/-- The unit vector of a nonzero point has norm one. -/
theorem hypot_unitVector {p : Point} (hp : p ≠ Pt 0 0) :
    hypot (unitVector p).X (unitVector p).Y = 1 := by
  have hpos := sumsq_pos_of_ne hp
  have hL : 0 < hypot p.X p.Y := Real.sqrt_pos.mpr hpos
  rw [unitVector, if_neg hp]
  show Real.sqrt (p.X / hypot p.X p.Y * (p.X / hypot p.X p.Y) +
    p.Y / hypot p.X p.Y * (p.Y / hypot p.X p.Y)) = 1
  have hdiv : p.X / hypot p.X p.Y * (p.X / hypot p.X p.Y) +
      p.Y / hypot p.X p.Y * (p.Y / hypot p.X p.Y) =
      (p.X * p.X + p.Y * p.Y) / (hypot p.X p.Y * hypot p.X p.Y) := by
    ring
  rw [hdiv, hypot, Real.mul_self_sqrt hpos.le, div_self hpos.ne',
    Real.sqrt_one]

/-- A unit vector either has norm one or is the zero vector. -/
theorem unitVector_norm_or_zero (v : Point) :
    hypot (unitVector v).X (unitVector v).Y = 1 ∨ unitVector v = Pt 0 0 := by
  by_cases hv : v = Pt 0 0
  · right
    rw [unitVector, if_pos hv, hv]
  · left
    exact hypot_unitVector hv

/-- The tangents of a fully degenerate segment are both zero. -/
theorem tangents_point (p : Point) :
    (Segment.mk p p p p).tangents = (Pt 0 0, Pt 0 0) := by
  have hz : p.Sub p = Pt 0 0 := by
    ext <;> (simp only [Point.Sub, Pt]; ring)
  have hu : unitVector (p.Sub p) = Pt 0 0 := by
    rw [hz, unitVector, if_pos rfl]
  rw [Segment.tangents]
  simp only [ne_eq, not_true_eq_false, if_false, ite_self]
  rw [hu]

/-- Negating a vector negates its unit vector. -/
theorem unitVector_neg_one (p : Point) :
    unitVector (p.Mul (-1)) = (unitVector p).Mul (-1) := by
  by_cases hp : p = Pt 0 0
  · rw [hp]
    have h : (Pt (0 : ℝ) 0).Mul (-1) = Pt 0 0 := by
      ext <;> (simp only [Point.Mul, Pt]; ring)
    rw [h, unitVector, if_pos rfl]
    ext <;> (simp only [Point.Mul, Pt]; ring)
  · have hpk : p.Mul (-1) ≠ Pt 0 0 := by
      intro h
      rcases Point.mul_eq_zero_iff.mp h with h' | h'
      · exact hp h'
      · norm_num at h'
    rw [unitVector, if_neg hpk, unitVector, if_neg hp]
    have hh : hypot (p.Mul (-1)).X (p.Mul (-1)).Y = hypot p.X p.Y := by
      show Real.sqrt (p.X * -1 * (p.X * -1) + p.Y * -1 * (p.Y * -1)) = _
      rw [hypot]
      congr 1
      ring
    rw [hh]
    ext
    · show p.X * -1 / hypot p.X p.Y = p.X / hypot p.X p.Y * -1
      ring
    · show p.Y * -1 / hypot p.X p.Y = p.Y / hypot p.X p.Y * -1
      ring

/-- Scaling by -1 twice is the identity. -/
theorem Point.mul_neg_one_involutive (p : Point) :
    (p.Mul (-1)).Mul (-1) = p := by
  ext <;> (simp only [Point.Mul, Pt]; ring)

/-- Scaling cancels in the zero test for a positive factor. -/
theorem Point.mul_eq_zero_of_pos {t : ℝ} (ht : 0 < t) (p : Point) :
    p.Mul t = Pt 0 0 ↔ p = Pt 0 0 := by
  rw [Point.mul_eq_zero_iff]
  exact or_iff_left ht.ne'

/-- The first de Casteljau half starts at the original start point. -/
theorem split_fst_Start (s : Segment) (t : ℝ) :
    (s.Split t).1.Start = s.Start :=
  rfl

/-- Displacement of the first half's first control point from the start. -/
theorem split_fst_CP1_sub (s : Segment) (t : ℝ) :
    ((s.Split t).1.CP1).Sub s.Start = (s.CP1.Sub s.Start).Mul t := by
  ext <;> simp only [Segment.Split, interpolate, Point.Mul, Point.Add,
    Point.Sub, Pt] <;> ring

/-- Displacement of the first half's second control point from the start,
when the first control point coincides with the start. -/
theorem split_fst_CP2_sub (s : Segment) (t : ℝ) (h1 : s.CP1 = s.Start) :
    ((s.Split t).1.CP2).Sub s.Start = (s.CP2.Sub s.Start).Mul (t ^ 2) := by
  have h1x : s.CP1.X = s.Start.X := congrArg Point.X h1
  have h1y : s.CP1.Y = s.Start.Y := congrArg Point.Y h1
  ext
  · simp only [Segment.Split, interpolate, Point.Mul, Point.Add,
      Point.Sub, Pt]
    rw [h1x]
    ring
  · simp only [Segment.Split, interpolate, Point.Mul, Point.Add,
      Point.Sub, Pt]
    rw [h1y]
    ring

/-- Displacement of the first half's end point from the start, when both
control points coincide with the start. -/
theorem split_fst_End_sub (s : Segment) (t : ℝ) (h1 : s.CP1 = s.Start)
    (h2 : s.CP2 = s.Start) :
    ((s.Split t).1.End).Sub s.Start = (s.End.Sub s.Start).Mul (t ^ 3) := by
  have h1x : s.CP1.X = s.Start.X := congrArg Point.X h1
  have h1y : s.CP1.Y = s.Start.Y := congrArg Point.Y h1
  have h2x : s.CP2.X = s.Start.X := congrArg Point.X h2
  have h2y : s.CP2.Y = s.Start.Y := congrArg Point.Y h2
  ext
  · simp only [Segment.Split, interpolate, Point.Mul, Point.Add,
      Point.Sub, Pt]
    rw [h1x, h2x]
    ring
  · simp only [Segment.Split, interpolate, Point.Mul, Point.Add,
      Point.Sub, Pt]
    rw [h1y, h2y]
    ring

/-- Splitting at `t > 0` preserves the start tangent on the first half:
the half's control polygon, measured from the shared start point, is the
original one scaled by powers of t, which `unitVector` normalizes away. -/
theorem split_fst_start_tangent (s : Segment) {t : ℝ} (ht : 0 < t) :
    ((s.Split t).1).tangents.1 = s.tangents.1 := by
  rw [tangents_fst, tangents_fst, split_fst_Start]
  by_cases h1 : s.CP1 = s.Start
  · have hH1 : (s.Split t).1.CP1 = s.Start := by
      rw [← Point.sub_eq_zero_iff, split_fst_CP1_sub,
        Point.mul_eq_zero_of_pos ht, Point.sub_eq_zero_iff]
      exact h1
    rw [if_neg (not_ne_iff.mpr hH1), if_neg (not_ne_iff.mpr h1)]
    by_cases h2 : s.CP2 = s.Start
    · have hH2 : (s.Split t).1.CP2 = s.Start := by
        rw [← Point.sub_eq_zero_iff, split_fst_CP2_sub s t h1,
          Point.mul_eq_zero_of_pos (pow_pos ht 2), Point.sub_eq_zero_iff]
        exact h2
      rw [if_neg (not_ne_iff.mpr hH2), if_neg (not_ne_iff.mpr h2),
        split_fst_End_sub s t h1 h2]
      exact unitVector_mul_pos _ (pow_pos ht 3)
    · have hH2 : (s.Split t).1.CP2 ≠ s.Start := by
        intro h
        rw [← Point.sub_eq_zero_iff, split_fst_CP2_sub s t h1,
          Point.mul_eq_zero_of_pos (pow_pos ht 2), Point.sub_eq_zero_iff] at h
        exact h2 h
      rw [if_pos hH2, if_pos h2, split_fst_CP2_sub s t h1]
      exact unitVector_mul_pos _ (pow_pos ht 2)
  · have hH1 : (s.Split t).1.CP1 ≠ s.Start := by
      intro h
      rw [← Point.sub_eq_zero_iff, split_fst_CP1_sub,
        Point.mul_eq_zero_of_pos ht, Point.sub_eq_zero_iff] at h
      exact h1 h
    rw [if_pos hH1, if_pos h1, split_fst_CP1_sub]
    exact unitVector_mul_pos _ ht

/-- Subtraction in the opposite order negates the vector. -/
theorem Point.sub_comm_neg (p q : Point) :
    p.Sub q = (q.Sub p).Mul (-1) := by
  ext <;> (simp only [Point.Sub, Point.Mul, Pt]; ring)

/-- The start tangent of a reversed segment is the negated end tangent of
the original. -/
theorem reverse_tangents_fst (s : Segment) :
    s.reverse.tangents.1 = (s.tangents.2).Mul (-1) := by
  rw [tangents_fst, tangents_snd]
  have e1 : s.reverse.CP1 = s.CP2 := rfl
  have e2 : s.reverse.Start = s.End := rfl
  have e3 : s.reverse.CP2 = s.CP1 := rfl
  have e4 : s.reverse.End = s.Start := rfl
  rw [e1, e2, e3, e4]
  by_cases h1 : s.CP2 = s.End
  · rw [if_neg (not_ne_iff.mpr h1), if_neg (not_ne_iff.mpr h1)]
    by_cases h2 : s.CP1 = s.End
    · rw [if_neg (not_ne_iff.mpr h2), if_neg (not_ne_iff.mpr h2),
        Point.sub_comm_neg s.Start s.End, unitVector_neg_one]
    · rw [if_pos h2, if_pos h2, Point.sub_comm_neg s.CP1 s.End,
        unitVector_neg_one]
  · rw [if_pos h1, if_pos h1, Point.sub_comm_neg s.CP2 s.End,
      unitVector_neg_one]

/-- The reversed second de Casteljau half at t is the first half of the
reversed segment at 1-t. -/
theorem split_snd_reverse (s : Segment) (t : ℝ) :
    (s.Split t).2.reverse = (s.reverse.Split (1 - t)).1 := by
  ext <;> simp only [Segment.Split, Segment.reverse, interpolate,
    Point.Mul, Point.Add, Pt] <;> ring

/-- Splitting at `t < 1` preserves the end tangent on the second half. -/
theorem split_snd_end_tangent (s : Segment) {t : ℝ} (ht : t < 1) :
    ((s.Split t).2).tangents.2 = s.tangents.2 := by
  have h1t : (0 : ℝ) < 1 - t := by linarith
  have key := split_fst_start_tangent s.reverse h1t
  rw [← split_snd_reverse] at key
  rw [reverse_tangents_fst, reverse_tangents_fst] at key
  have := congrArg (fun p : Point => p.Mul (-1)) key
  simp only at this
  rw [Point.mul_neg_one_involutive, Point.mul_neg_one_involutive] at this
  exact this

/-- C6 amended: for 0 < t < 1, the two halves of `Split` share the split
point, reproduce the original's endpoints, and reproduce its start and
end tangents; `Split2 0 1` is the segment itself.  (At t = 0 or t = 1 one
half degenerates to a point and its tangents are the zero vector, so the
tangent clause fails there; see the counterexample.) -/
theorem C6_split_rejoin (s : Segment) (t : ℝ) (h0 : 0 < t) (h1 : t < 1) :
    (s.Split t).1.Start = s.Start ∧
    (s.Split t).1.End = (s.Split t).2.Start ∧
    (s.Split t).2.End = s.End ∧
    (s.Split t).1.tangents.1 = s.tangents.1 ∧
    (s.Split t).2.tangents.2 = s.tangents.2 ∧
    s.Split2 0 1 = s := by
  refine ⟨rfl, rfl, rfl, split_fst_start_tangent s h0,
    split_snd_end_tangent s h1, ?_⟩
  rw [Segment.Split2, if_pos rfl]
  ext <;> simp only [Segment.Split, interpolate, Point.Mul, Point.Add,
    Pt] <;> ring

/-- Witness for the amended C6 at the linear segment from (0,0) to (1,0)
and t = 1/2. -/
theorem C6_split_rejoin_witness :
    ((0 : ℝ) < 1 / 2 ∧ (1 / 2 : ℝ) < 1) ∧
    (((LinearSegment (Pt 0 0) (Pt 1 0)).Split (1 / 2)).1.Start =
        (LinearSegment (Pt 0 0) (Pt 1 0)).Start ∧
      ((LinearSegment (Pt 0 0) (Pt 1 0)).Split (1 / 2)).1.End =
        ((LinearSegment (Pt 0 0) (Pt 1 0)).Split (1 / 2)).2.Start ∧
      ((LinearSegment (Pt 0 0) (Pt 1 0)).Split (1 / 2)).2.End =
        (LinearSegment (Pt 0 0) (Pt 1 0)).End ∧
      ((LinearSegment (Pt 0 0) (Pt 1 0)).Split (1 / 2)).1.tangents.1 =
        (LinearSegment (Pt 0 0) (Pt 1 0)).tangents.1 ∧
      ((LinearSegment (Pt 0 0) (Pt 1 0)).Split (1 / 2)).2.tangents.2 =
        (LinearSegment (Pt 0 0) (Pt 1 0)).tangents.2 ∧
      (LinearSegment (Pt 0 0) (Pt 1 0)).Split2 0 1 =
        LinearSegment (Pt 0 0) (Pt 1 0)) :=
  ⟨⟨by norm_num, by norm_num⟩,
    C6_split_rejoin (LinearSegment (Pt 0 0) (Pt 1 0)) (1 / 2)
      (by norm_num) (by norm_num)⟩

/-- C6 as stated (for every t in [0,1]) is false at t = 0: the first half
of the split of the nondegenerate segment from (0,0) to (1,0) collapses
to a point, so its start tangent is the zero vector while the original's
is (1,0). -/
theorem C6_counterexample :
    ¬ (((LinearSegment (Pt 0 0) (Pt 1 0)).Split 0).1.tangents.1 =
        (LinearSegment (Pt 0 0) (Pt 1 0)).tangents.1) := by
  have hsplit : ((LinearSegment (Pt 0 0) (Pt 1 0)).Split 0).1 =
      Segment.mk (Pt 0 0) (Pt 0 0) (Pt 0 0) (Pt 0 0) := by
    ext <;> simp only [LinearSegment, Segment.Split, interpolate,
      Point.Mul, Point.Add, Point.Sub, Point.Div, Pt] <;> norm_num
  have hL : ((LinearSegment (Pt 0 0) (Pt 1 0)).Split 0).1.tangents.1 =
      Pt 0 0 := by
    rw [hsplit, tangents_point]
  have h13 : unitVector (Pt (1 / 3 : ℝ) 0) = Pt 1 0 := by
    have hne : Pt (1 / 3 : ℝ) 0 ≠ Pt 0 0 := by
      intro h
      have := congrArg Point.X h
      norm_num [Pt] at this
    rw [unitVector, if_neg hne]
    have hh : hypot (Pt (1 / 3 : ℝ) 0).X (Pt (1 / 3 : ℝ) 0).Y = 1 / 3 := by
      show Real.sqrt ((1 / 3 : ℝ) * (1 / 3) + 0 * 0) = 1 / 3
      rw [show (1 / 3 : ℝ) * (1 / 3) + 0 * 0 = (1 / 3) ^ 2 by ring,
        Real.sqrt_sq (by norm_num)]
    rw [hh]
    ext
    · show (1 / 3 : ℝ) / (1 / 3) = 1
      norm_num
    · show (0 : ℝ) / (1 / 3) = 0
      norm_num
  have hR : (LinearSegment (Pt 0 0) (Pt 1 0)).tangents.1 = Pt 1 0 := by
    rw [tangents_fst]
    have hne : (LinearSegment (Pt 0 0) (Pt 1 0)).CP1 ≠
        (LinearSegment (Pt 0 0) (Pt 1 0)).Start := by
      intro h
      have := congrArg Point.X h
      simp only [LinearSegment, Point.Add, Point.Sub, Point.Div, Pt] at this
      norm_num at this
    rw [if_pos hne]
    have hsub : (LinearSegment (Pt 0 0) (Pt 1 0)).CP1.Sub
        (LinearSegment (Pt 0 0) (Pt 1 0)).Start = Pt (1 / 3) 0 := by
      ext <;> simp only [LinearSegment, Point.Add, Point.Sub, Point.Div,
        Pt] <;> norm_num
    rw [hsub, h13]
  intro h
  rw [hL, hR] at h
  have := congrArg Point.X h
  norm_num [Pt] at this

/-- Finding the first point different from a base, positive head case. -/
theorem find?_ne_cons_pos (base a : Point) (l : List Point) (h : a ≠ base) :
    List.find? (fun q => decide (q ≠ base)) (a :: l) = some a :=
  List.find?_cons_of_pos _ (decide_eq_true h)

/-- Finding the first point different from a base, coincident head
case. -/
theorem find?_ne_cons_neg (base a : Point) (l : List Point) (h : a = base) :
    List.find? (fun q => decide (q ≠ base)) (a :: l) =
      List.find? (fun q => decide (q ≠ base)) l :=
  List.find?_cons_of_neg _
    (by rw [decide_eq_false (not_ne_iff.mpr h)]; exact Bool.false_ne_true)

/-- The code's start tangent agrees with the spec's first-non-coincident
selection. -/
theorem tangents_fst_eq_spec (s : Segment) :
    s.tangents.1 = startTangentSpec s := by
  rw [tangents_fst, startTangentSpec]
  by_cases h1 : s.CP1 = s.Start
  · rw [if_neg (not_ne_iff.mpr h1), find?_ne_cons_neg _ _ _ h1]
    by_cases h2 : s.CP2 = s.Start
    · rw [if_neg (not_ne_iff.mpr h2), find?_ne_cons_neg _ _ _ h2]
      by_cases h3 : s.End = s.Start
      · rw [find?_ne_cons_neg _ _ _ h3, List.find?_nil]
        simp only [Option.map_none', Option.getD_none]
        rw [Point.sub_eq_zero_iff.mpr h3, unitVector, if_pos rfl]
      · rw [find?_ne_cons_pos _ _ _ h3]
        simp only [Option.map_some', Option.getD_some]
    · rw [if_pos h2, find?_ne_cons_pos _ _ _ h2]
      simp only [Option.map_some', Option.getD_some]
  · rw [if_pos h1, find?_ne_cons_pos _ _ _ h1]
    simp only [Option.map_some', Option.getD_some]

/-- The code's end tangent agrees with the spec's first-non-coincident
selection, with the direction taken from the control point toward the end
point. -/
theorem tangents_snd_eq_spec (s : Segment) :
    s.tangents.2 = endTangentSpec s := by
  rw [tangents_snd, endTangentSpec]
  by_cases h1 : s.CP2 = s.End
  · rw [if_neg (not_ne_iff.mpr h1), find?_ne_cons_neg _ _ _ h1]
    by_cases h2 : s.CP1 = s.End
    · rw [if_neg (not_ne_iff.mpr h2), find?_ne_cons_neg _ _ _ h2]
      by_cases h3 : s.Start = s.End
      · rw [find?_ne_cons_neg _ _ _ h3, List.find?_nil]
        simp only [Option.map_none', Option.getD_none]
        have hz : s.End.Sub s.Start = Pt 0 0 :=
          Point.sub_eq_zero_iff.mpr h3.symm
        rw [hz, unitVector, if_pos rfl]
      · rw [find?_ne_cons_pos _ _ _ h3]
        simp only [Option.map_some', Option.getD_some]
    · rw [if_pos h2, find?_ne_cons_pos _ _ _ h2]
      simp only [Option.map_some', Option.getD_some]
  · rw [if_pos h1, find?_ne_cons_pos _ _ _ h1]
    simp only [Option.map_some', Option.getD_some]

/-- C8 amended: `tangents` picks, in order, the first control point not
coincident with the respective endpoint (the start tangent points from
the start toward that control point; the end tangent points from it
toward the end point), each tangent is a unit vector or — when the
relevant points all coincide — the zero vector, and a fully degenerate
segment has both tangents zero; no error is surfaced in any case. -/
theorem C8_tangent_selection (s : Segment) (p : Point) :
    s.tangents.1 = startTangentSpec s ∧
    s.tangents.2 = endTangentSpec s ∧
    (hypot (s.tangents.1).X (s.tangents.1).Y = 1 ∨ s.tangents.1 = Pt 0 0) ∧
    (hypot (s.tangents.2).X (s.tangents.2).Y = 1 ∨ s.tangents.2 = Pt 0 0) ∧
    (Segment.mk p p p p).tangents = (Pt 0 0, Pt 0 0) := by
  refine ⟨tangents_fst_eq_spec s, tangents_snd_eq_spec s, ?_, ?_,
    tangents_point p⟩
  · obtain ⟨v, hv⟩ : ∃ v, s.tangents.1 = unitVector v := by
      rw [tangents_fst]
      by_cases h1 : s.CP1 ≠ s.Start
      · exact ⟨_, if_pos h1⟩
      · rw [if_neg h1]
        by_cases h2 : s.CP2 ≠ s.Start
        · exact ⟨_, if_pos h2⟩
        · rw [if_neg h2]
          exact ⟨_, rfl⟩
    rw [hv]
    exact unitVector_norm_or_zero v
  · obtain ⟨v, hv⟩ : ∃ v, s.tangents.2 = unitVector v := by
      rw [tangents_snd]
      by_cases h1 : s.CP2 ≠ s.End
      · exact ⟨_, if_pos h1⟩
      · rw [if_neg h1]
        by_cases h2 : s.CP1 ≠ s.End
        · exact ⟨_, if_pos h2⟩
        · rw [if_neg h2]
          exact ⟨_, rfl⟩
    rw [hv]
    exact unitVector_norm_or_zero v

/-- C8 as stated is false about the end tangent's direction: on the test
segment {(119,100),(25,190),(210,250),(210,30)}, the first control point
not coincident with the end is CP2 = (210,250); the unit vector from the
end toward it is (0,1), while `tangents` returns (0,-1) — the direction
of travel into the end point, not the direction toward the control
point. -/
theorem C8_counterexample :
    (Segment.mk (Pt 119 100) (Pt 25 190) (Pt 210 250)
        (Pt 210 30)).tangents.2 ≠
      endTangentSpecLiteral (Segment.mk (Pt 119 100) (Pt 25 190)
        (Pt 210 250) (Pt 210 30)) := by
  have hne : Pt (210 : ℝ) 250 ≠ Pt 210 30 := by
    intro h
    have := congrArg Point.Y h
    norm_num [Pt] at this
  have hu1 : unitVector (Pt (0 : ℝ) (-220)) = Pt 0 (-1) := by
    have hne0 : Pt (0 : ℝ) (-220) ≠ Pt 0 0 := by
      intro h
      have := congrArg Point.Y h
      norm_num [Pt] at this
    rw [unitVector, if_neg hne0]
    have hh : hypot (Pt (0 : ℝ) (-220)).X (Pt (0 : ℝ) (-220)).Y = 220 := by
      show Real.sqrt ((0 : ℝ) * 0 + -220 * -220) = 220
      rw [show ((0 : ℝ) * 0 + -220 * -220) = (220 : ℝ) ^ 2 by ring,
        Real.sqrt_sq (by norm_num)]
    rw [hh]
    ext
    · show (0 : ℝ) / 220 = 0
      norm_num
    · show (-220 : ℝ) / 220 = -1
      norm_num
  have hu2 : unitVector (Pt (0 : ℝ) 220) = Pt 0 1 := by
    have hne0 : Pt (0 : ℝ) 220 ≠ Pt 0 0 := by
      intro h
      have := congrArg Point.Y h
      norm_num [Pt] at this
    rw [unitVector, if_neg hne0]
    have hh : hypot (Pt (0 : ℝ) 220).X (Pt (0 : ℝ) 220).Y = 220 := by
      show Real.sqrt ((0 : ℝ) * 0 + 220 * 220) = 220
      rw [show ((0 : ℝ) * 0 + 220 * 220) = (220 : ℝ) ^ 2 by ring,
        Real.sqrt_sq (by norm_num)]
    rw [hh]
    ext
    · show (0 : ℝ) / 220 = 0
      norm_num
    · show (220 : ℝ) / 220 = 1
      norm_num
  have hsub1 : (Pt (210 : ℝ) 30).Sub (Pt 210 250) = Pt 0 (-220) := by
    ext <;> simp only [Point.Sub, Pt] <;> norm_num
  have hsub2 : (Pt (210 : ℝ) 250).Sub (Pt 210 30) = Pt 0 220 := by
    ext <;> simp only [Point.Sub, Pt] <;> norm_num
  have htan : (Segment.mk (Pt (119 : ℝ) 100) (Pt 25 190) (Pt 210 250)
      (Pt 210 30)).tangents.2 = Pt 0 (-1) := by
    rw [tangents_snd]
    rw [if_pos (hne : (Segment.mk (Pt (119 : ℝ) 100) (Pt 25 190)
      (Pt 210 250) (Pt 210 30)).CP2 ≠ (Segment.mk (Pt (119 : ℝ) 100)
      (Pt 25 190) (Pt 210 250) (Pt 210 30)).End)]
    show unitVector ((Pt (210 : ℝ) 30).Sub (Pt 210 250)) = Pt 0 (-1)
    rw [hsub1, hu1]
  have hlit : endTangentSpecLiteral (Segment.mk (Pt (119 : ℝ) 100)
      (Pt 25 190) (Pt 210 250) (Pt 210 30)) = Pt 0 1 := by
    rw [endTangentSpecLiteral]
    rw [show (Segment.mk (Pt (119 : ℝ) 100) (Pt 25 190) (Pt 210 250)
      (Pt 210 30)).CP2 = Pt 210 250 from rfl]
    rw [find?_ne_cons_pos _ _ _ (hne : Pt (210 : ℝ) 250 ≠
      (Segment.mk (Pt (119 : ℝ) 100) (Pt 25 190) (Pt 210 250)
        (Pt 210 30)).End)]
    simp only [Option.map_some', Option.getD_some]
    show unitVector ((Pt (210 : ℝ) 250).Sub (Pt 210 30)) = Pt 0 1
    rw [hsub2, hu2]
  intro h
  rw [htan, hlit] at h
  have := congrArg Point.Y h
  norm_num [Pt] at this

end

end stroke
